import Mathlib

/-!
Verification development for the Quantum LIMIT-GRAPH v2.3.0 evaluation oracle
core.  The Lean definitions below are a shallow embedding of the Python
sources:

* `src/agent/repair_edit_stream.py` — the REPAIR edit stream with its
  dual-tier (short-term / long-term) memory;
* `graph/quantum_traversal.py`     — semantic-coherence scoring and the
  QAOA / classical graph traversals;
* `src/context/ace_context_router.py` — the ACE context router with its
  dynamically adjusted thresholds.

Python floats are embedded as rationals (`ℚ`): every constant appearing in
the sources (0.05, 0.1, 0.8, 0.85, …) is an exact decimal, and no claim
below depends on binary floating-point rounding.  Python texts are embedded
as `List Char`.  Wall-clock timestamps (`datetime.now()`) are embedded as a
monotonically increasing `Nat` counter stored in the stream state, so that
"older" means "smaller `last_accessed`".
-/

namespace QuantumLimitGraph

/-- Types of REPAIR edits (`EditType` in `repair_edit_stream.py`). -/
inductive EditType where
  | INSERTION
  | DELETION
  | SUBSTITUTION
  | REORDERING
deriving DecidableEq

/-- Types of hallucinations detected (`HallucinationType`). -/
inductive HallucinationType where
  | FACTUAL_ERROR
  | ENTITY_MISMATCH
  | TEMPORAL_INCONSISTENCY
  | LOGICAL_CONTRADICTION
  | UNSUPPORTED_CLAIM
deriving DecidableEq

/-- Single REPAIR edit operation (`Edit` dataclass).  The Python
`edit_id` string `f"edit_\x7bn:06d\x7d"` is determined by the counter `n`
(the formatting is injective), so we embed the id as the counter itself. -/
structure Edit where
  edit_id : ℕ
  edit_type : EditType
  position : ℤ
  original_text : List Char
  corrected_text : List Char
  confidence : ℚ
  hallucination_type : Option HallucinationType := none
  provenance : Option String := none
  timestamp : ℕ
deriving DecidableEq

/-- Dual-memory architecture entry (`MemoryEntry` dataclass). -/
structure MemoryEntry where
  content : List Char
  memory_type : String
  edit_history : List Edit := []
  reliability_score : ℚ := 1
  last_accessed : ℕ
deriving DecidableEq

/-- State of a `REPAIREditStream` object.  `clock` embeds wall-clock time:
it is bumped whenever the Python code would call `datetime.now()` for a
fresh object, which keeps `last_accessed` strictly increasing across
entries created by the stream itself. -/
structure REPAIREditStream where
  short_term_memory : List MemoryEntry := []
  long_term_memory : List MemoryEntry := []
  short_term_capacity : ℕ := 100
  long_term_capacity : ℕ := 1000
  edit_counter : ℕ := 0
  hallucination_stats : HallucinationType → ℕ := fun _ => 0
  clock : ℕ := 0

/-- Fresh stream, as built by `REPAIREditStream.__init__`. -/
def REPAIREditStream.mk0 (short_term_capacity long_term_capacity : ℕ) :
    REPAIREditStream :=
  { short_term_capacity := short_term_capacity
    long_term_capacity := long_term_capacity }

/-- Python substring test `needle in hay` on lists of characters. -/
def containsSubstr (hay needle : List Char) : Bool :=
  needle.isPrefixOf hay ||
    match hay with
    | [] => false
    | _ :: t => containsSubstr t needle

/-- Python `str.lower()` (ASCII case folding suffices for the texts the
claims exercise). -/
def pyLower (s : List Char) : List Char := s.map Char.toLower

/-- Context dictionary passed to `detect_hallucination` / `apply_edits`:
the code reads only the keys `entities` and `source`. -/
structure Ctx where
  entities : List (List Char) := []
  source : Option String := none

/-- `REPAIREditStream.detect_hallucination`, translated clause by clause. -/
def detectHallucination (text : List Char) (context : Ctx) :
    Option HallucinationType :=
  if ¬ containsSubstr (pyLower text) "according to".toList ∧
      containsSubstr (pyLower text) "research shows".toList then
    some HallucinationType.UNSUPPORTED_CLAIM
  else if context.entities ≠ [] then
    if context.entities.any
        (fun e => containsSubstr (pyLower text) (pyLower e)) then
      none
    else
      some HallucinationType.ENTITY_MISMATCH
  else
    none

/-- `REPAIREditStream.create_edit`: bump the counter, use it as the id,
bump the per-type hallucination statistics, and stamp the edit with the
current clock (`datetime.now()`). -/
def createEdit (s : REPAIREditStream) (edit_type : EditType) (position : ℤ)
    (original corrected : List Char) (confidence : ℚ)
    (hallucination_type : Option HallucinationType)
    (provenance : Option String) : REPAIREditStream × Edit :=
  let counter := s.edit_counter + 1
  let stats :=
    match hallucination_type with
    | some ht => fun h => if h = ht then s.hallucination_stats h + 1
        else s.hallucination_stats h
    | none => s.hallucination_stats
  ({ s with
      edit_counter := counter
      hallucination_stats := stats
      clock := s.clock + 1 },
   { edit_id := counter
     edit_type := edit_type
     position := position
     original_text := original
     corrected_text := corrected
     confidence := confidence
     hallucination_type := hallucination_type
     provenance := provenance
     timestamp := s.clock })

/-- Python `text.replace(old, new, 1)`: replace the first occurrence of
`old` (no-op when `old` does not occur; prepends `new` when `old` is the
empty string, matching Python). -/
def replaceFirst : List Char → List Char → List Char → List Char
  | [], old, new => if old.isPrefixOf [] then new else []
  | c :: t, old, new =>
    if old.isPrefixOf (c :: t) then new ++ (c :: t).drop old.length
    else c :: replaceFirst t old new

/-- Clamp a Python slice index into `[0, len]` (negative indices count
from the end), as used by `text[:p]` / `text[p:]`. -/
def pySliceIdx (len : ℕ) (p : ℤ) : ℕ :=
  (max 0 (min (len : ℤ) (if p < 0 then (len : ℤ) + p else p))).toNat

/-- `REPAIREditStream.apply_edit`, translated branch by branch. -/
def applyEdit (text : List Char) (edit : Edit) : List Char :=
  match edit.edit_type with
  | EditType.SUBSTITUTION =>
      replaceFirst text edit.original_text edit.corrected_text
  | EditType.INSERTION =>
      text.take (pySliceIdx text.length edit.position) ++
        edit.corrected_text ++
        text.drop (pySliceIdx text.length edit.position)
  | EditType.DELETION => replaceFirst text edit.original_text []
  | EditType.REORDERING => text

/-- The promotion bar of `add_to_memory`: the filter condition
`e.reliability_score > 0.8`. -/
def isReliable (e : MemoryEntry) : Bool := (0.8 : ℚ) < e.reliability_score

/-- Python `min(entries, key=lambda e: e.last_accessed)` wrapped in an
`Option` for the empty list; like Python's `min`, ties resolve to the
earliest element. -/
def minByLastAccessed : List MemoryEntry → Option MemoryEntry
  | [] => none
  | e :: rest =>
    match minByLastAccessed rest with
    | none => some e
    | some m => if m.last_accessed < e.last_accessed then some m else some e

/-- `REPAIREditStream.add_to_memory`: append to the short-term tier; on
overflow promote the oldest entry with `reliability_score > 0.8` to the
long-term tier (dropping that tier's head if it then overflows), else pop
the head of the short-term tier.  Python's `list.remove` deletes the first
element equal to its argument, which is `List.erase`; `list.pop(0)` is
`List.drop 1`. -/
def addToMemory (s : REPAIREditStream) (entry : MemoryEntry) :
    REPAIREditStream :=
  let short := s.short_term_memory ++ [entry]
  let pair :=
    if short.length > s.short_term_capacity then
      let reliable := short.filter isReliable
      match minByLastAccessed reliable with
      | some oldest =>
          (short.erase oldest,
           s.long_term_memory ++ [{ oldest with memory_type := "long_term" }])
      | none => (short.drop 1, s.long_term_memory)
    else (short, s.long_term_memory)
  let long :=
    if pair.2.length > s.long_term_capacity then pair.2.drop 1 else pair.2
  { s with short_term_memory := pair.1, long_term_memory := long }

/-- Per-edit metadata dictionary listed in `apply_edits`'s result. -/
structure AppliedEditInfo where
  edit_id : ℕ
  type : EditType
  hallucination : Option HallucinationType
  confidence : ℚ
  provenance : Option String
deriving DecidableEq

/-- Result dictionary of `REPAIREditStream.apply_edits`. -/
structure ApplyEditsResult where
  original_text : List Char
  edited_text : List Char
  edits_applied : List AppliedEditInfo
  reliability_score : ℚ
  hallucination_detected : Option HallucinationType

/-- Projection of an `Edit` to the metadata listed in the result. -/
def Edit.info (e : Edit) : AppliedEditInfo :=
  { edit_id := e.edit_id
    type := e.edit_type
    hallucination := e.hallucination_type
    confidence := e.confidence
    provenance := e.provenance }

/-- Correction phase of `REPAIREditStream.apply_edits`: detect a
hallucination; when one is found, create one corrective substitution edit
(prefixing the text with the correction marker) and apply it.  Returns the
updated stream, the current text and the list of applied edits. -/
def repairPhase (s : REPAIREditStream) (text : List Char) (context : Ctx) :
    REPAIREditStream × List Char × List Edit :=
  match detectHallucination text context with
  | some h =>
    let se := createEdit s EditType.SUBSTITUTION 0 text
      ("[CORRECTED] ".toList ++ text) 0.85 (some h)
      (some (context.source.getD "unknown"))
    (se.1, applyEdit text se.2, [se.2])
  | none => (s, text, [])

/-- The `MemoryEntry(...)` constructor call inside `apply_edits`:
short-term entry with `reliability_score = 1.0 - 0.1 * len(edits_applied)`
stamped with the current clock. -/
def newMemoryEntry (clock : ℕ) (content : List Char) (edits : List Edit) :
    MemoryEntry :=
  { content := content
    memory_type := "short_term"
    edit_history := edits
    reliability_score := 1 - 0.1 * edits.length
    last_accessed := clock }

/-- The `MemoryEntry` a given `apply_edits` call stores: built by
`newMemoryEntry` from the correction phase's output. -/
def nextEntry (s : REPAIREditStream) (text : List Char) (context : Ctx) :
    MemoryEntry :=
  newMemoryEntry (repairPhase s text context).1.clock
    (repairPhase s text context).2.1 (repairPhase s text context).2.2

/-- `REPAIREditStream.apply_edits`: run the correction phase, store the
new entry in the short-term tier (with capacity management), and return
the result dictionary. -/
def applyEdits (s : REPAIREditStream) (text : List Char) (context : Ctx) :
    REPAIREditStream × ApplyEditsResult :=
  let step := repairPhase s text context
  let s1 := step.1
  let currentText := step.2.1
  let editsApplied := step.2.2
  let entry := nextEntry s text context
  let s2 := addToMemory { s1 with clock := s1.clock + 1 } entry
  (s2,
   { original_text := text
     edited_text := currentText
     edits_applied := editsApplied.map Edit.info
     reliability_score := entry.reliability_score
     hallucination_detected := detectHallucination text context })

/-- Provenance record returned by `get_edit_provenance`. -/
structure ProvenanceRecord where
  edit_id : ℕ
  type : EditType
  timestamp : ℕ
  hallucination_type : Option HallucinationType
  provenance : Option String
  confidence : ℚ
  memory_type : String
deriving DecidableEq

/-- Linear scan of `get_edit_provenance`: first matching edit of the first
matching memory wins. -/
def provenanceSearch (memories : List MemoryEntry) (edit_id : ℕ) :
    Option ProvenanceRecord :=
  match memories with
  | [] => none
  | m :: rest =>
    match m.edit_history.find? (fun e => e.edit_id = edit_id) with
    | some e =>
        some { edit_id := e.edit_id
               type := e.edit_type
               timestamp := e.timestamp
               hallucination_type := e.hallucination_type
               provenance := e.provenance
               confidence := e.confidence
               memory_type := m.memory_type }
    | none => provenanceSearch rest edit_id

/-- `REPAIREditStream.get_edit_provenance`: search the short-term tier,
then the long-term tier. -/
def getEditProvenance (s : REPAIREditStream) (edit_id : ℕ) :
    Option ProvenanceRecord :=
  provenanceSearch (s.short_term_memory ++ s.long_term_memory) edit_id

/-- A sequence of `apply_edits` calls (text and context per call) starting
from a given stream state, keeping only the final state. -/
def runEdits (s : REPAIREditStream) (calls : List (List Char × Ctx)) :
    REPAIREditStream :=
  calls.foldl (fun st c => (applyEdits st c.1 c.2).1) s

/-! Graph traversal (`graph/quantum_traversal.py`).  The semantic graph is
an undirected `networkx.Graph`: a node list plus edges carrying an optional
`weight` attribute (absent attributes fall back to the per-call defaults
the Python code passes to `edge_data.get`). -/

/-- Attributes attached to an edge (`weight=..., type=...` keyword
arguments of `add_edge`); both may be absent. -/
structure EdgeData where
  weight : Option ℚ := none
  type : Option String := none
deriving DecidableEq

/-- Undirected weighted graph handed to `QuantumGraphTraversal`. -/
structure Graph where
  nodes : List String
  edges : List (String × String × EdgeData)

/-- `networkx` `G.has_edge(a, b)` on an undirected graph. -/
def hasEdge (g : Graph) (a b : String) : Bool :=
  g.edges.any (fun e => (e.1 = a ∧ e.2.1 = b) ∨ (e.1 = b ∧ e.2.1 = a))

/-- `G[a][b].get('weight', default)`: the stored weight of the first edge
joining `a` and `b`, or `default` when the attribute is absent. -/
def edgeWeight (g : Graph) (a b : String) (default : ℚ) : ℚ :=
  match g.edges.find? (fun e => (e.1 = a ∧ e.2.1 = b) ∨ (e.1 = b ∧ e.2.1 = a)) with
  | some e => (e.2.2.weight).getD default
  | none => default

/-- Per-hop coherence scores of a path: the edge weight (attribute default
0.5) for adjacent consecutive nodes, the fixed penalty 0.1 otherwise. -/
def coherenceScores (g : Graph) (path : List String) : List ℚ :=
  (path.zip path.tail).map (fun p =>
    if hasEdge g p.1 p.2 then edgeWeight g p.1 p.2 0.5 else 0.1)

/-- `QuantumGraphTraversal.compute_semantic_coherence`: paths with fewer
than two nodes return 1.0 up front; otherwise the mean of the per-hop
scores (the trailing `else 0.0` of the Python `np.mean(...) if
coherence_scores else 0.0` is kept, although it is unreachable). -/
def computeSemanticCoherence (g : Graph) (path : List String) : ℚ :=
  if path.length < 2 then 1
  else
    let scores := coherenceScores g path
    if scores = [] then 0 else scores.sum / scores.length

/-- Unique neighbors of a node, as `networkx` `G.neighbors`. -/
def neighbors (g : Graph) (n : String) : List String :=
  (g.edges.filterMap (fun e =>
    if e.1 = n then some e.2.1 else if e.2.1 = n then some e.1 else none)).dedup

/-- Breadth-first search for a path (queue of reversed partial paths;
nodes are marked visited when enqueued, so `g.nodes.length + 1` units of
fuel explore the whole component). -/
def bfsAux (g : Graph) (t : String) :
    ℕ → List (List String) → List String → Option (List String)
  | 0, _, _ => none
  | Nat.succ _, [], _ => none
  | Nat.succ fuel, p :: qs, visited =>
    match p with
    | [] => none
    | cur :: _ =>
      if cur = t then some p.reverse
      else
        let ns := (neighbors g cur).filter (fun n => n ∉ visited)
        bfsAux g t fuel (qs ++ ns.map (fun n => n :: p)) (visited ++ ns)

/-- Some path from `s` to `t` (`none` exactly when `t` is unreachable from
`s`); returns `some [s]` when `s = t`. -/
def bfsPath (g : Graph) (s t : String) : Option (List String) :=
  bfsAux g t (g.nodes.length + 1) [[s]] [s]

/-- Exceptions the traversal code can see from `networkx`. -/
inductive NxError where
  | nodeNotFound
  | noPath
deriving DecidableEq

/-- Modelled from the `networkx` library (third-party, not part of this
repository): `nx.shortest_path(G, s, t, weight=...)` raises `NodeNotFound`
when an endpoint is missing, raises `NetworkXNoPath` when `t` is
unreachable from `s`, returns `[s]` when `s = t`, and otherwise returns a
minimum-cost path.  The claims below depend only on those contract points,
never on which minimum-cost path is picked, so the path search itself is
modelled by breadth-first search. -/
def shortestPath (g : Graph) (s t : String) : Except NxError (List String) :=
  if s ∈ g.nodes ∧ t ∈ g.nodes then
    match bfsPath g s t with
    | some p => Except.ok p
    | none => Except.error NxError.noPath
  else Except.error NxError.nodeNotFound

/-- Modelled from `networkx`: `nx.has_path` runs `shortest_path`,
converting `NetworkXNoPath` to `False` and letting `NodeNotFound`
propagate. -/
def hasPath (g : Graph) (s t : String) : Except NxError Bool :=
  match shortestPath g s t with
  | Except.ok _ => Except.ok true
  | Except.error NxError.noPath => Except.ok false
  | Except.error NxError.nodeNotFound => Except.error NxError.nodeNotFound

/-- `QuantumGraphTraversal.classical_traversal`: shortest path under the
inverted-weight metric, cost `len(path) * (1 - coherence)`; only
`NetworkXNoPath` is caught (yielding `([start], 0.0)`), `NodeNotFound`
escapes. -/
def classicalTraversal (g : Graph) (start target : String) :
    Except NxError (List String × ℚ) :=
  match shortestPath g start target with
  | Except.ok path =>
      Except.ok (path, (path.length : ℚ) * (1 - computeSemanticCoherence g path))
  | Except.error NxError.noPath => Except.ok ([start], 0)
  | Except.error NxError.nodeNotFound => Except.error NxError.nodeNotFound

/-- All suffix-paths from `cur` to `t` avoiding `visited` and using at
most `fuel` further edges (`cur` is already in `visited`). -/
def simplePathsAux (g : Graph) (t : String) :
    ℕ → String → List String → List (List String)
  | fuel, cur, visited =>
    if cur = t then [[cur]]
    else
      match fuel with
      | 0 => []
      | Nat.succ f =>
        ((neighbors g cur).filter (fun n => n ∉ visited)).flatMap
          (fun n => (simplePathsAux g t f n (n :: visited)).map
            (fun p => cur :: p))

/-- Modelled from `networkx` 2.x (the series contemporaneous with the
`qiskit.algorithms` import the source uses): `nx.all_simple_paths(G, s, t,
cutoff)` yields the simple paths with at most `cutoff` edges, and yields
nothing at all when `source == target` (it returns an empty generator in
that case). -/
def allSimplePaths (g : Graph) (s t : String) (cutoff : ℕ) :
    List (List String) :=
  if s = t then [] else simplePathsAux g t cutoff s [s]

/-- `QuantumGraphTraversal.qaoa_traversal`.  The QAOA +
`MinimumEigenOptimizer` backend is a pluggable combinatorial solver; it is
abstracted as a function from the linear cost vector of the candidate
paths to an optional assignment vector and objective value (`none` models
a solver exception).  The whole `try` body falls back to
`classical_traversal` on any exception (`NodeNotFound` from `has_path`, or
a solver failure). -/
def qaoaTraversal (solver : List ℚ → Option (List ℚ × ℚ)) (g : Graph)
    (start target : String) : Except NxError (List String × ℚ) :=
  let body : Except Unit (List String × ℚ) :=
    match hasPath g start target with
    | Except.error _ => Except.error ()
    | Except.ok false => Except.ok ([start], 0)
    | Except.ok true =>
      let allPaths := allSimplePaths g start target 5
      if allPaths = [] then Except.ok ([start], 0)
      else
        let paths := allPaths.take 10
        let costs := paths.map
          (fun p => (p.length : ℚ) * (1 - computeSemanticCoherence g p))
        match solver costs with
        | none => Except.error ()
        | some res =>
          match (List.range paths.length).find?
              (fun i => (0.5 : ℚ) < res.1.getD i 0) with
          | some i => Except.ok (paths.getD i [], res.2)
          | none => Except.ok (paths.getD 0 [], 0)
  match body with
  | Except.ok r => Except.ok r
  | Except.error _ => classicalTraversal g start target

/-! Context router (`src/context/ace_context_router.py`).  Embeddings are
an abstract type `E`; `compute_similarity` (cosine similarity, whose norms
involve square roots) is abstracted as a score function `sim : E → E → ℚ`,
since the router only compares scores with thresholds and sorts by them —
no claim depends on the cosine formula itself. -/

/-- Context layer types (`ContextLayer`). -/
inductive ContextLayer where
  | GLOBAL
  | DOMAIN
  | LANGUAGE
deriving DecidableEq

/-- Single context entry (`ContextEntry`; the never-read `metadata` field
is omitted). -/
structure ContextEntry (E : Type) where
  content : String
  layer : ContextLayer
  embedding : E
  language : String
  domain : Option String := none

/-- Router state: thresholds plus the per-layer insertion-ordered
stores. -/
structure ACEContextRouter (E : Type) where
  base_threshold : ℚ := 0.80
  min_threshold : ℚ := 0.70
  max_threshold : ℚ := 0.95
  context_store : ContextLayer → List (ContextEntry E) := fun _ => []

/-- `ACEContextRouter.add_context`: append to the store of the entry's own
layer. -/
def addContext {E : Type} (r : ACEContextRouter E) (entry : ContextEntry E) :
    ACEContextRouter E :=
  { r with context_store := fun l =>
      if l = entry.layer then r.context_store l ++ [entry]
      else r.context_store l }

/-- `np.clip(x, lo, hi)`: apply the lower bound, then the upper bound. -/
def npClip (x lo hi : ℚ) : ℚ := min (max x lo) hi

/-- `ACEContextRouter.adjust_threshold`, translated statement by
statement. -/
def adjustThreshold {E : Type} (r : ACEContextRouter E) (layer : ContextLayer)
    (query_complexity : ℚ) (language_match : Bool) : ℚ :=
  let t := r.base_threshold
  let t := if layer = ContextLayer.GLOBAL then t + 0.05
    else if layer = ContextLayer.LANGUAGE then t - 0.05
    else t
  let t := t + (query_complexity - 0.5) * 0.1
  let t := if language_match then t - 0.03 else t
  npClip t r.min_threshold r.max_threshold

/-- One layer of `ACEContextRouter.route_context`: walk the layer's store
skipping entries the layer-specific filters reject, score the rest, keep
scores at or above the adjusted threshold, stable-sort descending by score
(Python `list.sort(key=..., reverse=True)` is stable), truncate to
`top_k`.  A `query_domain` of `none` models a falsy Python
`query_domain`. -/
def routeLayer {E : Type} (sim : E → E → ℚ) (r : ACEContextRouter E)
    (query_embedding : E) (query_language : String)
    (query_domain : Option String) (query_complexity : ℚ) (top_k : ℕ)
    (layer : ContextLayer) : List (ContextEntry E × ℚ) :=
  let language_match := layer = ContextLayer.LANGUAGE
  let threshold := adjustThreshold r layer query_complexity language_match
  let layer_results := (r.context_store layer).filterMap (fun entry =>
    if layer = ContextLayer.LANGUAGE ∧ entry.language ≠ query_language then
      none
    else if layer = ContextLayer.DOMAIN ∧ query_domain.isSome ∧
        entry.domain ≠ query_domain then
      none
    else
      let s := sim query_embedding entry.embedding
      if threshold ≤ s then some (entry, s) else none)
  (layer_results.mergeSort (fun a b => decide (b.2 ≤ a.2))).take top_k

/-- `ACEContextRouter.route_context`: the per-layer results, as a function
from the layer (the Python dict is keyed by the three layers). -/
def routeContext {E : Type} (sim : E → E → ℚ) (r : ACEContextRouter E)
    (query_embedding : E) (query_language : String)
    (query_domain : Option String) (query_complexity : ℚ) (top_k : ℕ) :
    ContextLayer → List (ContextEntry E × ℚ) :=
  fun layer =>
    routeLayer sim r query_embedding query_language query_domain
      query_complexity top_k layer

/-- Written from the spec's words, for comparison with `routeLayer`: the
candidate filter — the LANGUAGE layer keeps only entries of the query's
language, the DOMAIN layer (when a domain is supplied) keeps only entries
of that domain. -/
def specLayerPass {E : Type} (layer : ContextLayer) (query_language : String)
    (query_domain : Option String) (entry : ContextEntry E) : Bool :=
  !(layer = ContextLayer.LANGUAGE ∧ entry.language ≠ query_language) &&
    !(layer = ContextLayer.DOMAIN ∧ query_domain.isSome ∧
      entry.domain ≠ query_domain)

/-- Written from the spec's words: filter the layer's candidates, score
every survivor, keep scores at or above the layer's adjusted threshold. -/
def specFiltered {E : Type} (sim : E → E → ℚ) (r : ACEContextRouter E)
    (query_embedding : E) (query_language : String)
    (query_domain : Option String) (query_complexity : ℚ)
    (layer : ContextLayer) : List (ContextEntry E × ℚ) :=
  let threshold := adjustThreshold r layer query_complexity
    (layer = ContextLayer.LANGUAGE)
  (((r.context_store layer).filter
      (specLayerPass layer query_language query_domain)).map
    (fun e => (e, sim query_embedding e.embedding))).filter
    (fun p => decide (threshold ≤ p.2))

/-- Written from the spec's words: sort the filtered candidates descending
by similarity with a stable sort and truncate to `top_k`. -/
def specRouted {E : Type} (sim : E → E → ℚ) (r : ACEContextRouter E)
    (query_embedding : E) (query_language : String)
    (query_domain : Option String) (query_complexity : ℚ) (top_k : ℕ)
    (layer : ContextLayer) : List (ContextEntry E × ℚ) :=
  ((specFiltered sim r query_embedding query_language query_domain
      query_complexity layer).mergeSort (fun a b => decide (b.2 ≤ a.2))).take
    top_k

/-- Written from the spec's words: the per-layer additive adjustment,
+0.05 for the GLOBAL layer and −0.05 for the LANGUAGE layer. -/
def specLayerDelta : ContextLayer → ℚ
  | ContextLayer.GLOBAL => 0.05
  | ContextLayer.LANGUAGE => -0.05
  | ContextLayer.DOMAIN => 0

/-- Concrete fixture: a fully reliable short-term entry with timestamp 0. -/
def fixtureEntry0 : MemoryEntry :=
  { content := []
    memory_type := "short_term"
    edit_history := []
    reliability_score := 1
    last_accessed := 0 }

/-- Concrete fixture: a fully reliable short-term entry with timestamp 1. -/
def fixtureEntry1 : MemoryEntry :=
  { content := []
    memory_type := "short_term"
    edit_history := []
    reliability_score := 1
    last_accessed := 1 }

/-- Concrete fixture: a capacity-1/1 stream holding `fixtureEntry0` in its
short-term tier. -/
def fixtureStream : REPAIREditStream :=
  { short_term_memory := [fixtureEntry0]
    long_term_memory := []
    short_term_capacity := 1
    long_term_capacity := 1
    edit_counter := 0
    hallucination_stats := fun _ => 0
    clock := 2 }

/-- Concrete fixture: a Spanish-language LANGUAGE-layer entry. -/
def fixtureEsEntry : ContextEntry Unit :=
  { content := "hola"
    layer := ContextLayer.LANGUAGE
    embedding := ()
    language := "es" }

/-- Concrete fixture: a router whose LANGUAGE layer holds only
`fixtureEsEntry`. -/
def fixtureRouter : ACEContextRouter Unit :=
  { context_store := fun l =>
      if l = ContextLayer.LANGUAGE then [fixtureEsEntry] else [] }

/-! Helper lemmas. -/

theorem npClip_le_hi (x lo hi : ℚ) : npClip x lo hi ≤ hi := min_le_right _ _

theorem lo_le_npClip (x lo hi : ℚ) (h : lo ≤ hi) : lo ≤ npClip x lo hi :=
  le_min (le_max_right x lo) h

theorem coherenceScores_length (g : Graph) (path : List String) :
    (coherenceScores g path).length = path.length - 1 := by
  cases path with
  | nil => rfl
  | cons a t => simp [coherenceScores, Nat.min_def]

/-! Claim theorems. -/

/-- C3 (amended): `compute_semantic_coherence` returns 1.0 for the empty
path and for any single-node path (the guard `len(path) < 2` returns 1.0
up front, so the empty path does NOT yield 0.0 — see the counterexample),
and for every path with at least two nodes it returns the mean, over
consecutive node pairs, of the connecting edge's weight when the edge
exists and the fixed penalty 0.1 otherwise. -/
theorem computeSemanticCoherence_spec (g : Graph) :
    computeSemanticCoherence g [] = 1 ∧
    (∀ n : String, computeSemanticCoherence g [n] = 1) ∧
    (∀ path : List String, 2 ≤ path.length →
      computeSemanticCoherence g path =
        (coherenceScores g path).sum / ((path.length - 1 : ℕ) : ℚ)) := by
  refine ⟨rfl, fun n => rfl, fun path hp => ?_⟩
  have hlen := coherenceScores_length g path
  have hne : coherenceScores g path ≠ [] := by
    intro h
    rw [h] at hlen
    simp at hlen
    omega
  rw [computeSemanticCoherence]
  rw [if_neg (by omega), if_neg hne, hlen]

/-- C3 counterexample: on the explicit empty graph the empty path scores
1.0, not 0.0 as the claim states. -/
theorem computeSemanticCoherence_nil_counterexample :
    computeSemanticCoherence ⟨[], []⟩ [] = 1 ∧
    computeSemanticCoherence ⟨[], []⟩ [] ≠ 0 := by
  constructor
  · rfl
  · show (1 : ℚ) ≠ 0
    norm_num

/-- C3 witness: the amended mean formula evaluated on a concrete two-node
path of a concrete graph. -/
theorem computeSemanticCoherence_spec_witness :
    computeSemanticCoherence
        ⟨["A", "B"], [("A", "B", { weight := some 0.8 })]⟩ ["A", "B"] =
      (coherenceScores ⟨["A", "B"], [("A", "B", { weight := some 0.8 })]⟩
          ["A", "B"]).sum / (((["A", "B"] : List String).length - 1 : ℕ) : ℚ) :=
  (computeSemanticCoherence_spec _).2.2 ["A", "B"] (by decide)

/-- C4: `adjust_threshold` equals the base threshold plus 0.05 for the
GLOBAL layer, minus 0.05 for the LANGUAGE layer, plus
`(query_complexity - 0.5) * 0.1`, minus 0.03 when `language_match` holds,
clamped to `[min_threshold, max_threshold]`; for every layer, every
complexity in [0, 1] (extremes included) and every flag, the result lies
in the configured range. -/
theorem adjustThreshold_spec {E : Type} (r : ACEContextRouter E)
    (layer : ContextLayer) (qc : ℚ) (lm : Bool)
    (h0 : 0 ≤ qc) (h1 : qc ≤ 1)
    (hrange : r.min_threshold ≤ r.max_threshold) :
    adjustThreshold r layer qc lm =
      npClip (r.base_threshold + specLayerDelta layer
          + (qc - 0.5) * 0.1 - (if lm then 0.03 else 0))
        r.min_threshold r.max_threshold ∧
    r.min_threshold ≤ adjustThreshold r layer qc lm ∧
    adjustThreshold r layer qc lm ≤ r.max_threshold := by
  refine ⟨?_, ?_, ?_⟩
  · cases layer <;> cases lm <;>
      simp +decide only [adjustThreshold, specLayerDelta, if_true,
        if_false] <;>
      (try (congr 1; ring))
  · exact lo_le_npClip _ _ _ hrange
  · exact npClip_le_hi _ _ _

/-- C4 witness: the default router configuration at the extreme
complexity 0 on the GLOBAL layer. -/
theorem adjustThreshold_spec_witness :
    adjustThreshold ({} : ACEContextRouter Unit) ContextLayer.GLOBAL 0 false =
      npClip (({} : ACEContextRouter Unit).base_threshold
          + specLayerDelta ContextLayer.GLOBAL
          + ((0 : ℚ) - 0.5) * 0.1 - (if false then 0.03 else 0))
        ({} : ACEContextRouter Unit).min_threshold
        ({} : ACEContextRouter Unit).max_threshold ∧
    ({} : ACEContextRouter Unit).min_threshold ≤
      adjustThreshold ({} : ACEContextRouter Unit) ContextLayer.GLOBAL 0 false ∧
    adjustThreshold ({} : ACEContextRouter Unit) ContextLayer.GLOBAL 0 false ≤
      ({} : ACEContextRouter Unit).max_threshold :=
  adjustThreshold_spec {} ContextLayer.GLOBAL 0 false (by norm_num)
    (by norm_num) (by norm_num)

/-- C6: when the target is unreachable from the start (both being nodes
of the graph), `classical_traversal` returns `([start], 0.0)` and
`qaoa_traversal` returns `([start], 0.0)` for every solver backend; no
exception escapes either function in this case. -/
theorem traversal_unreachable (g : Graph) (start target : String)
    (hs : start ∈ g.nodes) (ht : target ∈ g.nodes)
    (hun : bfsPath g start target = none) :
    classicalTraversal g start target = Except.ok ([start], 0) ∧
    ∀ solver, qaoaTraversal solver g start target = Except.ok ([start], 0) := by
  have hsp : shortestPath g start target = Except.error NxError.noPath := by
    rw [shortestPath, if_pos ⟨hs, ht⟩, hun]
  constructor
  · rw [classicalTraversal, hsp]
  · intro solver
    rw [qaoaTraversal]
    simp only [hasPath, hsp]

/-- C6 witness: the two-node edgeless graph, target "B" unreachable from
"A". -/
theorem traversal_unreachable_witness :
    classicalTraversal ⟨["A", "B"], []⟩ "A" "B" = Except.ok (["A"], 0) ∧
    ∀ solver, qaoaTraversal solver ⟨["A", "B"], []⟩ "A" "B" =
      Except.ok (["A"], 0) :=
  traversal_unreachable ⟨["A", "B"], []⟩ "A" "B" (by decide) (by decide)
    (by decide)

/-- C7: for a start node present in the graph, a traversal with
`start == target` yields the one-node path `[start]` with cost 0.0 under
both `classical_traversal` and `qaoa_traversal`; the latter holds for
every solver backend, because `all_simple_paths` is empty for
`source == target` and the guard returns before the solver is invoked;
and the one-node path has coherence 1.0. -/
theorem traversal_self_loop (g : Graph) (start : String)
    (hs : start ∈ g.nodes) :
    classicalTraversal g start start = Except.ok ([start], 0) ∧
    (∀ solver, qaoaTraversal solver g start start = Except.ok ([start], 0)) ∧
    computeSemanticCoherence g [start] = 1 := by
  have hb : bfsPath g start start = some [start] := by
    rw [bfsPath, bfsAux]
    simp
  have hsp : shortestPath g start start = Except.ok [start] := by
    rw [shortestPath, if_pos ⟨hs, hs⟩, hb]
  refine ⟨?_, ?_, rfl⟩
  · have hco : computeSemanticCoherence g [start] = 1 := rfl
    simp only [classicalTraversal, hsp, hco, List.length_singleton]
    norm_num
  · intro solver
    rw [qaoaTraversal]
    simp only [hasPath, hsp]
    have hempty : allSimplePaths g start start 5 = [] := by
      rw [allSimplePaths, if_pos rfl]
    simp [hempty]

theorem replaceFirst_single_count (a b : Char) (hab : a ≠ b) :
    ∀ text : List Char, text.count a = 1 → text.count b = 0 →
      (replaceFirst text [a] [b]).count b = 1 ∧
      (replaceFirst text [a] [b]).count a = 0 := by
  intro text
  induction text with
  | nil => intro h _; simp at h
  | cons c t ih =>
    intro ha hb
    rw [List.count_cons] at ha hb
    by_cases hca : c = a
    · subst hca
      have hpre : [c].isPrefixOf (c :: t) = true := by simp [List.isPrefixOf]
      rw [replaceFirst, if_pos hpre]
      have hta : t.count c = 0 := by
        simp at ha; omega
      have htb : t.count b = 0 := by
        simp [show (c == b) = false from by simp [hab]] at hb
        omega
      constructor
      · simp [List.count_cons, htb, List.drop]
      · simp [List.count_cons, hta, List.drop, Ne.symm hab]
    · have hpre : [a].isPrefixOf (c :: t) = false := by
        simp [List.isPrefixOf]
        exact fun he => absurd he.symm hca
      rw [replaceFirst, if_neg (by simp [hpre])]
      have hta : t.count a = 1 := by
        simp [show (c == a) = false from by simp [hca]] at ha
        omega
      have hcb : c ≠ b := by
        intro he
        subst he
        simp at hb
      have htb : t.count b = 0 := by
        simp [show (c == b) = false from by simp [hcb]] at hb
        omega
      have := ih hta htb
      constructor
      · rw [List.count_cons, this.1]
        simp [show (c == b) = false from by simp [hcb]]
      · rw [List.count_cons, this.2]
        simp [show (c == a) = false from by simp [hca]]

/-- C8 counterexample: the text "XY" contains exactly one "X", yet
applying the substitution edit built by `create_edit` with original "X"
and corrected "Y" yields "YY", which contains two occurrences of "Y", not
exactly one — `str.replace` does not account for pre-existing "Y"s. -/
theorem applyEdit_substitution_counterexample :
    "XY".toList.count 'X' = 1 ∧
    applyEdit "XY".toList
        (createEdit (REPAIREditStream.mk0 100 1000) EditType.SUBSTITUTION 0
          "X".toList "Y".toList 0.9 none none).2 = "YY".toList ∧
    (applyEdit "XY".toList
        (createEdit (REPAIREditStream.mk0 100 1000) EditType.SUBSTITUTION 0
          "X".toList "Y".toList 0.9 none none).2).count 'Y' ≠ 1 := by
  refine ⟨by decide, by decide, by decide⟩

/-- C8 (amended): for every text containing exactly one occurrence of "X"
and no occurrence of "Y", applying a substitution edit created by
`create_edit` with original "X" and corrected "Y" via `apply_edit` yields
a text containing exactly one occurrence of "Y" and zero occurrences of
"X".  (The amendment adds the no-prior-"Y" precondition the counterexample
forces.) -/
theorem applyEdit_substitution_roundtrip (s : REPAIREditStream)
    (position : ℤ) (confidence : ℚ) (text : List Char)
    (hX : text.count 'X' = 1) (hY : text.count 'Y' = 0) :
    (applyEdit text (createEdit s EditType.SUBSTITUTION position "X".toList
        "Y".toList confidence none none).2).count 'Y' = 1 ∧
    (applyEdit text (createEdit s EditType.SUBSTITUTION position "X".toList
        "Y".toList confidence none none).2).count 'X' = 0 :=
  replaceFirst_single_count 'X' 'Y' (by decide) text hX hY

/-- C8 witness: the amended round-trip on the concrete text "AX". -/
theorem applyEdit_substitution_roundtrip_witness :
    (applyEdit "AX".toList
        (createEdit (REPAIREditStream.mk0 100 1000) EditType.SUBSTITUTION 0
          "X".toList "Y".toList 0.9 none none).2).count 'Y' = 1 ∧
    (applyEdit "AX".toList
        (createEdit (REPAIREditStream.mk0 100 1000) EditType.SUBSTITUTION 0
          "X".toList "Y".toList 0.9 none none).2).count 'X' = 0 :=
  applyEdit_substitution_roundtrip (REPAIREditStream.mk0 100 1000) 0 0.9
    "AX".toList (by decide) (by decide)

theorem drop_one_append_singleton {α : Type} (l : List α) (x : α)
    (h : l ≠ []) : (l ++ [x]).drop 1 = l.drop 1 ++ [x] := by
  cases l with
  | nil => exact absurd rfl h
  | cons a t => simp

theorem eq_of_mem_of_not_mem_erase {α : Type} [DecidableEq α] {a b : α}
    {l : List α} (ha : a ∈ l) (hne : a ∉ l.erase b) : a = b := by
  by_contra hab
  exact hne ((List.mem_erase_of_ne hab).mpr ha)

theorem addToMemory_eq_no_overflow (s : REPAIREditStream)
    (entry : MemoryEntry)
    (hov : ¬ (s.short_term_memory ++ [entry]).length > s.short_term_capacity) :
    addToMemory s entry = { s with
      short_term_memory := s.short_term_memory ++ [entry],
      long_term_memory :=
        if s.long_term_memory.length > s.long_term_capacity then
          s.long_term_memory.drop 1
        else s.long_term_memory } := by
  rw [addToMemory]
  simp only [if_neg hov]

theorem addToMemory_eq_promote (s : REPAIREditStream) (entry m : MemoryEntry)
    (hov : (s.short_term_memory ++ [entry]).length > s.short_term_capacity)
    (hmin : minByLastAccessed
      ((s.short_term_memory ++ [entry]).filter isReliable) = some m) :
    addToMemory s entry = { s with
      short_term_memory := (s.short_term_memory ++ [entry]).erase m,
      long_term_memory :=
        if (s.long_term_memory ++
            [{ m with memory_type := "long_term" }]).length >
            s.long_term_capacity then
          (s.long_term_memory ++
            [{ m with memory_type := "long_term" }]).drop 1
        else s.long_term_memory ++
          [{ m with memory_type := "long_term" }] } := by
  rw [addToMemory]
  simp only [if_pos hov, hmin]

theorem addToMemory_eq_drop_oldest (s : REPAIREditStream)
    (entry : MemoryEntry)
    (hov : (s.short_term_memory ++ [entry]).length > s.short_term_capacity)
    (hmin : minByLastAccessed
      ((s.short_term_memory ++ [entry]).filter isReliable) = none) :
    addToMemory s entry = { s with
      short_term_memory := (s.short_term_memory ++ [entry]).drop 1,
      long_term_memory :=
        if s.long_term_memory.length > s.long_term_capacity then
          s.long_term_memory.drop 1
        else s.long_term_memory } := by
  rw [addToMemory]
  simp only [if_pos hov, hmin]

theorem provenanceSearch_isSome (edit_id : ℕ) :
    ∀ memories : List MemoryEntry,
      (∃ mem ∈ memories, ∃ e ∈ mem.edit_history, e.edit_id = edit_id) →
      (provenanceSearch memories edit_id).isSome = true := by
  intro memories
  induction memories with
  | nil => rintro ⟨mem, hmem, _⟩; simp at hmem
  | cons m rest ih =>
    rintro ⟨mem, hmem, e, he, hid⟩
    rw [provenanceSearch]
    cases hf : m.edit_history.find? (fun e => e.edit_id = edit_id) with
    | some _ => simp
    | none =>
      simp only []
      rcases List.mem_cons.mp hmem with hm | hm
      · subst hm
        have := List.find?_eq_none.mp hf e he
        simp [hid] at this
      · exact ih ⟨mem, hm, e, he, hid⟩

theorem addToMemory_keeps_history (s : REPAIREditStream)
    (entry : MemoryEntry) (hS : 1 ≤ s.short_term_capacity)
    (hL : 1 ≤ s.long_term_capacity) :
    ∃ mem ∈ (addToMemory s entry).short_term_memory ++
        (addToMemory s entry).long_term_memory,
      mem.edit_history = entry.edit_history := by
  by_cases hov :
      (s.short_term_memory ++ [entry]).length > s.short_term_capacity
  · cases hmin : minByLastAccessed
        ((s.short_term_memory ++ [entry]).filter isReliable) with
    | none =>
      refine ⟨entry, ?_, rfl⟩
      have hne : s.short_term_memory ≠ [] := by
        intro h
        rw [h] at hov
        simp at hov
        omega
      rw [addToMemory_eq_drop_oldest s entry hov hmin]
      rw [List.mem_append]
      left
      show entry ∈ (s.short_term_memory ++ [entry]).drop 1
      rw [drop_one_append_singleton _ _ hne]
      simp
    | some oldest =>
      rw [addToMemory_eq_promote s entry oldest hov hmin]
      by_cases hent : entry ∈ (s.short_term_memory ++ [entry]).erase oldest
      · refine ⟨entry, ?_, rfl⟩
        rw [List.mem_append]
        left
        exact hent
      · have heq : entry = oldest :=
          eq_of_mem_of_not_mem_erase (by simp) hent
        subst heq
        refine ⟨{ entry with memory_type := "long_term" }, ?_, rfl⟩
        rw [List.mem_append]
        right
        show { entry with memory_type := "long_term" } ∈
          if (s.long_term_memory ++
              [{ entry with memory_type := "long_term" }]).length >
              s.long_term_capacity then
            (s.long_term_memory ++
              [{ entry with memory_type := "long_term" }]).drop 1
          else s.long_term_memory ++
            [{ entry with memory_type := "long_term" }]
        by_cases hlov : (s.long_term_memory ++
            [{ entry with memory_type := "long_term" }]).length >
            s.long_term_capacity
        · rw [if_pos hlov]
          have hlne : s.long_term_memory ≠ [] := by
            intro h
            rw [h] at hlov
            simp at hlov
            omega
          rw [drop_one_append_singleton _ _ hlne]
          simp
        · rw [if_neg hlov]
          simp
  · refine ⟨entry, ?_, rfl⟩
    rw [addToMemory_eq_no_overflow s entry hov]
    rw [List.mem_append]
    left
    simp

theorem repairPhase_caps (s : REPAIREditStream) (text : List Char)
    (context : Ctx) :
    (repairPhase s text context).1.short_term_capacity =
        s.short_term_capacity ∧
    (repairPhase s text context).1.long_term_capacity =
        s.long_term_capacity := by
  cases h : detectHallucination text context <;>
    simp [repairPhase, h, createEdit]

/-- C9: for a stream whose two capacities are at least 1, every edit id
listed in an `apply_edits` result is resolvable via `get_edit_provenance`
immediately after the call: the lookup returns a record (holding the
edit's metadata together with the tier of the memory entry that currently
holds it) rather than none. -/
theorem applyEdits_provenance (s : REPAIREditStream) (text : List Char)
    (context : Ctx) (hS : 1 ≤ s.short_term_capacity)
    (hL : 1 ≤ s.long_term_capacity) :
    ∀ info ∈ (applyEdits s text context).2.edits_applied,
      (getEditProvenance (applyEdits s text context).1 info.edit_id).isSome
        = true := by
  intro info hinfo
  have hmap : (applyEdits s text context).2.edits_applied =
      (repairPhase s text context).2.2.map Edit.info := rfl
  rw [hmap] at hinfo
  obtain ⟨e, he, hei⟩ := List.mem_map.mp hinfo
  have hstate : (applyEdits s text context).1 =
      addToMemory
        { (repairPhase s text context).1 with
            clock := (repairPhase s text context).1.clock + 1 }
        (newMemoryEntry (repairPhase s text context).1.clock
          (repairPhase s text context).2.1
          (repairPhase s text context).2.2) := rfl
  obtain ⟨mem, hmem, hhist⟩ :=
    addToMemory_keeps_history
      { (repairPhase s text context).1 with
          clock := (repairPhase s text context).1.clock + 1 }
      (newMemoryEntry (repairPhase s text context).1.clock
        (repairPhase s text context).2.1
        (repairPhase s text context).2.2)
      (by simpa [(repairPhase_caps s text context).1] using hS)
      (by simpa [(repairPhase_caps s text context).2] using hL)
  rw [getEditProvenance, hstate]
  apply provenanceSearch_isSome
  refine ⟨mem, hmem, e, ?_, ?_⟩
  · rw [hhist]
    exact he
  · rw [← hei]
    rfl

/-- C9 witness: a capacity-1/1 stream and a text that triggers one
corrective edit; the resulting edit id 1 resolves immediately. -/
theorem applyEdits_provenance_witness :
    (getEditProvenance
        (applyEdits (REPAIREditStream.mk0 1 1) "research shows x".toList
          {}).1 1).isSome = true :=
  applyEdits_provenance (REPAIREditStream.mk0 1 1) "research shows x".toList
    {} (by decide) (by decide) _ (List.Mem.head _)

theorem minByLastAccessed_mem :
    ∀ (l : List MemoryEntry) (m : MemoryEntry),
      minByLastAccessed l = some m → m ∈ l := by
  intro l
  induction l with
  | nil => intro m h; simp [minByLastAccessed] at h
  | cons e rest ih =>
    intro m h
    rw [minByLastAccessed] at h
    cases hr : minByLastAccessed rest with
    | none =>
      rw [hr] at h
      injection h with h
      exact h ▸ List.mem_cons_self e rest
    | some mr =>
      rw [hr] at h
      simp only [] at h
      by_cases hlt : mr.last_accessed < e.last_accessed
      · rw [if_pos hlt] at h
        injection h with h
        exact List.mem_cons_of_mem e (h ▸ ih mr hr)
      · rw [if_neg hlt] at h
        injection h with h
        exact h ▸ List.mem_cons_self e rest

theorem addToMemory_capacity (s : REPAIREditStream) (entry : MemoryEntry)
    (hshort : s.short_term_memory.length ≤ s.short_term_capacity)
    (hlong : s.long_term_memory.length ≤ s.long_term_capacity) :
    (addToMemory s entry).short_term_memory.length ≤ s.short_term_capacity ∧
    (addToMemory s entry).long_term_memory.length ≤ s.long_term_capacity := by
  have hlen : (s.short_term_memory ++ [entry]).length =
      s.short_term_memory.length + 1 := by simp
  by_cases hov :
      (s.short_term_memory ++ [entry]).length > s.short_term_capacity
  · cases hmin : minByLastAccessed
        ((s.short_term_memory ++ [entry]).filter isReliable) with
    | none =>
      rw [addToMemory_eq_drop_oldest s entry hov hmin]
      constructor
      · show ((s.short_term_memory ++ [entry]).drop 1).length ≤ _
        rw [List.length_drop, hlen]
        omega
      · show (if s.long_term_memory.length > s.long_term_capacity then
            s.long_term_memory.drop 1 else s.long_term_memory).length ≤ _
        rw [if_neg (by omega)]
        exact hlong
    | some m =>
      have hm : m ∈ s.short_term_memory ++ [entry] :=
        List.mem_of_mem_filter (minByLastAccessed_mem _ m hmin)
      rw [addToMemory_eq_promote s entry m hov hmin]
      constructor
      · show ((s.short_term_memory ++ [entry]).erase m).length ≤ _
        rw [List.length_erase_of_mem hm, hlen]
        omega
      · show (if (s.long_term_memory ++
            [{ m with memory_type := "long_term" }]).length >
            s.long_term_capacity then
            (s.long_term_memory ++
              [{ m with memory_type := "long_term" }]).drop 1
          else _).length ≤ _
        by_cases hlov : (s.long_term_memory ++
            [{ m with memory_type := "long_term" }]).length >
            s.long_term_capacity
        · rw [if_pos hlov]
          rw [List.length_drop]
          simp at hlov ⊢
          omega
        · rw [if_neg hlov]
          simp at hlov
          simp
          omega
  · rw [addToMemory_eq_no_overflow s entry hov]
    constructor
    · show (s.short_term_memory ++ [entry]).length ≤ _
      omega
    · show (if s.long_term_memory.length > s.long_term_capacity then
          s.long_term_memory.drop 1 else s.long_term_memory).length ≤ _
      rw [if_neg (by omega)]
      exact hlong

theorem addToMemory_caps (s : REPAIREditStream) (entry : MemoryEntry) :
    (addToMemory s entry).short_term_capacity = s.short_term_capacity ∧
    (addToMemory s entry).long_term_capacity = s.long_term_capacity :=
  ⟨rfl, rfl⟩

theorem applyEdits_capacity (s : REPAIREditStream) (text : List Char)
    (context : Ctx)
    (hshort : s.short_term_memory.length ≤ s.short_term_capacity)
    (hlong : s.long_term_memory.length ≤ s.long_term_capacity) :
    (applyEdits s text context).1.short_term_memory.length ≤
        s.short_term_capacity ∧
    (applyEdits s text context).1.long_term_memory.length ≤
        s.long_term_capacity ∧
    (applyEdits s text context).1.short_term_capacity =
        s.short_term_capacity ∧
    (applyEdits s text context).1.long_term_capacity =
        s.long_term_capacity := by
  have hmem : (repairPhase s text context).1.short_term_memory =
      s.short_term_memory ∧
      (repairPhase s text context).1.long_term_memory =
      s.long_term_memory := by
    cases h : detectHallucination text context <;>
      simp [repairPhase, h, createEdit]
  have hstate : (applyEdits s text context).1 =
      addToMemory
        { (repairPhase s text context).1 with
            clock := (repairPhase s text context).1.clock + 1 }
        (newMemoryEntry (repairPhase s text context).1.clock
          (repairPhase s text context).2.1
          (repairPhase s text context).2.2) := rfl
  rw [hstate]
  have hcap := repairPhase_caps s text context
  have h := addToMemory_capacity
    { (repairPhase s text context).1 with
        clock := (repairPhase s text context).1.clock + 1 }
    (newMemoryEntry (repairPhase s text context).1.clock
      (repairPhase s text context).2.1
      (repairPhase s text context).2.2)
    (by simp [hmem.1, hcap.1]; exact hshort)
    (by simp [hmem.2, hcap.2]; exact hlong)
  refine ⟨?_, ?_, ?_, ?_⟩
  · simpa [hcap.1] using h.1
  · simpa [hcap.2] using h.2
  · simpa using hcap.1
  · simpa using hcap.2

theorem runEdits_capacity (calls : List (List Char × Ctx)) :
    ∀ s : REPAIREditStream,
      s.short_term_memory.length ≤ s.short_term_capacity →
      s.long_term_memory.length ≤ s.long_term_capacity →
      (runEdits s calls).short_term_memory.length ≤ s.short_term_capacity ∧
      (runEdits s calls).long_term_memory.length ≤ s.long_term_capacity ∧
      (runEdits s calls).short_term_capacity = s.short_term_capacity ∧
      (runEdits s calls).long_term_capacity = s.long_term_capacity := by
  induction calls with
  | nil => intro s h1 h2; exact ⟨h1, h2, rfl, rfl⟩
  | cons c rest ih =>
    intro s h1 h2
    have hstep := applyEdits_capacity s c.1 c.2 h1 h2
    have hrun : runEdits s (c :: rest) =
        runEdits (applyEdits s c.1 c.2).1 rest := rfl
    rw [hrun]
    have := ih (applyEdits s c.1 c.2).1
      (by rw [hstep.2.2.1]; exact hstep.1)
      (by rw [hstep.2.2.2]; exact hstep.2.1)
    refine ⟨?_, ?_, ?_, ?_⟩
    · rw [← hstep.2.2.1]; exact this.1
    · rw [← hstep.2.2.2]; exact this.2.1
    · rw [this.2.2.1, hstep.2.2.1]
    · rw [this.2.2.2, hstep.2.2.2]

/-- C1: a stream built with short-term capacity `S ≥ 1` and long-term
capacity `L ≥ 1`, populated from empty by any sequence of `apply_edits`
calls, holds at most `S` short-term entries and at most `L` long-term
entries at the end of every call (every prefix of the call sequence is
itself such a sequence, so the bound holds after each call). -/
theorem applyEdits_capacity_invariant (S L : ℕ) (hS : 1 ≤ S) (hL : 1 ≤ L)
    (calls : List (List Char × Ctx)) :
    (runEdits (REPAIREditStream.mk0 S L) calls).short_term_memory.length
        ≤ S ∧
    (runEdits (REPAIREditStream.mk0 S L) calls).long_term_memory.length
        ≤ L := by
  have h := runEdits_capacity calls (REPAIREditStream.mk0 S L)
    (by simp [REPAIREditStream.mk0]) (by simp [REPAIREditStream.mk0])
  exact ⟨h.1, h.2.1⟩

/-- C1 witness: 150 `apply_edits` calls against capacities 100/1000 leave
at most 100 short-term and 1000 long-term entries. -/
theorem applyEdits_capacity_invariant_witness :
    (runEdits (REPAIREditStream.mk0 100 1000)
        (List.replicate 150 ("research shows x".toList, {}))
      ).short_term_memory.length ≤ 100 ∧
    (runEdits (REPAIREditStream.mk0 100 1000)
        (List.replicate 150 ("research shows x".toList, {}))
      ).long_term_memory.length ≤ 1000 :=
  applyEdits_capacity_invariant 100 1000 (by decide) (by decide) _

theorem nextEntry_reliability (s : REPAIREditStream) (text : List Char)
    (context : Ctx) :
    (nextEntry s text context).reliability_score = 1 ∨
    (nextEntry s text context).reliability_score = 0.9 := by
  cases h : detectHallucination text context with
  | none =>
    left
    norm_num [nextEntry, repairPhase, h, newMemoryEntry]
  | some ht =>
    right
    norm_num [nextEntry, repairPhase, h, newMemoryEntry]

theorem isReliable_of_score (e : MemoryEntry)
    (h : e.reliability_score = 1 ∨ e.reliability_score = 0.9) :
    isReliable e = true := by
  rcases h with h | h <;> (simp [isReliable, h]; norm_num)

theorem minByLastAccessed_ne_none (l : List MemoryEntry) (h : l ≠ []) :
    minByLastAccessed l ≠ none := by
  cases l with
  | nil => exact absurd rfl h
  | cons e rest =>
    rw [minByLastAccessed]
    cases minByLastAccessed rest with
    | none => simp
    | some mr => by_cases hlt : mr.last_accessed < e.last_accessed <;>
        simp [hlt]

theorem repairPhase_memories (s : REPAIREditStream) (text : List Char)
    (context : Ctx) :
    (repairPhase s text context).1.short_term_memory =
        s.short_term_memory ∧
    (repairPhase s text context).1.long_term_memory =
        s.long_term_memory := by
  cases h : detectHallucination text context <;>
    simp [repairPhase, h, createEdit]

theorem addToMemory_short_sublist (s : REPAIREditStream)
    (entry : MemoryEntry) :
    ((addToMemory s entry).short_term_memory).Sublist
      (s.short_term_memory ++ [entry]) := by
  by_cases hov :
      (s.short_term_memory ++ [entry]).length > s.short_term_capacity
  · cases hmin : minByLastAccessed
        ((s.short_term_memory ++ [entry]).filter isReliable) with
    | none =>
      rw [addToMemory_eq_drop_oldest s entry hov hmin]
      exact List.drop_sublist 1 _
    | some m =>
      rw [addToMemory_eq_promote s entry m hov hmin]
      exact List.erase_sublist m _
  · rw [addToMemory_eq_no_overflow s entry hov]

theorem runEdits_reliability (calls : List (List Char × Ctx)) :
    ∀ s : REPAIREditStream,
      (∀ e ∈ s.short_term_memory,
        e.reliability_score = 1 ∨ e.reliability_score = 0.9) →
      ∀ e ∈ (runEdits s calls).short_term_memory,
        e.reliability_score = 1 ∨ e.reliability_score = 0.9 := by
  induction calls with
  | nil => intro s h; exact h
  | cons c rest ih =>
    intro s h
    have hrun : runEdits s (c :: rest) =
        runEdits (applyEdits s c.1 c.2).1 rest := rfl
    rw [hrun]
    refine ih (applyEdits s c.1 c.2).1 ?_
    intro e he
    have hstate : (applyEdits s c.1 c.2).1 =
        addToMemory
          { (repairPhase s c.1 c.2).1 with
              clock := (repairPhase s c.1 c.2).1.clock + 1 }
          (nextEntry s c.1 c.2) := rfl
    rw [hstate] at he
    have hmem := (addToMemory_short_sublist _ _).subset he
    rw [List.mem_append] at hmem
    rcases hmem with hmem | hmem
    · exact h e (by
        have := (repairPhase_memories s c.1 c.2).1
        simpa [this] using hmem)
    · rw [List.mem_singleton] at hmem
      rw [hmem]
      exact nextEntry_reliability s c.1 c.2

/-- C10: in a stream populated from empty only through `apply_edits`,
every stored short-term entry and every next entry to be stored has
reliability score exactly 1.0 (no hallucination) or 0.9 (one corrective
edit), both above the 0.8 promotion bar, so the reliable-entry filter of
`add_to_memory` keeps the whole short-term list and its
`min(..., key=last_accessed)` never sees an empty list: the
`else`-branch that drops the oldest short-term entry without promotion is
never executed. -/
theorem applyEdits_reliability_promotion (S L : ℕ)
    (calls : List (List Char × Ctx)) (text : List Char) (context : Ctx) :
    (∀ e ∈ (runEdits (REPAIREditStream.mk0 S L) calls).short_term_memory,
      e.reliability_score = 1 ∨ e.reliability_score = 0.9) ∧
    ((nextEntry (runEdits (REPAIREditStream.mk0 S L) calls) text
        context).reliability_score = 1 ∨
      (nextEntry (runEdits (REPAIREditStream.mk0 S L) calls) text
        context).reliability_score = 0.9) ∧
    ((runEdits (REPAIREditStream.mk0 S L) calls).short_term_memory ++
        [nextEntry (runEdits (REPAIREditStream.mk0 S L) calls) text context]
      ).filter isReliable =
      (runEdits (REPAIREditStream.mk0 S L) calls).short_term_memory ++
        [nextEntry (runEdits (REPAIREditStream.mk0 S L) calls) text
          context] ∧
    minByLastAccessed
      (((runEdits (REPAIREditStream.mk0 S L) calls).short_term_memory ++
        [nextEntry (runEdits (REPAIREditStream.mk0 S L) calls) text context]
        ).filter isReliable) ≠ none := by
  have h1 := runEdits_reliability calls (REPAIREditStream.mk0 S L)
    (by intro e he; simp [REPAIREditStream.mk0] at he)
  have h2 := nextEntry_reliability (runEdits (REPAIREditStream.mk0 S L) calls)
    text context
  have hall : ∀ e ∈ (runEdits (REPAIREditStream.mk0 S L) calls
      ).short_term_memory ++
      [nextEntry (runEdits (REPAIREditStream.mk0 S L) calls) text context],
      isReliable e = true := by
    intro e he
    rw [List.mem_append] at he
    rcases he with he | he
    · exact isReliable_of_score e (h1 e he)
    · rw [List.mem_singleton] at he
      rw [he]
      exact isReliable_of_score _ h2
  have hfil := List.filter_eq_self.mpr hall
  refine ⟨h1, h2, hfil, ?_⟩
  rw [hfil]
  exact minByLastAccessed_ne_none _ (by simp)

theorem minByLastAccessed_of_sorted (l : List MemoryEntry)
    (hp : l.Pairwise (fun a b => a.last_accessed < b.last_accessed)) :
    ∀ m ∈ l, (∀ x ∈ l, m.last_accessed ≤ x.last_accessed) →
      minByLastAccessed l = some m := by
  induction l with
  | nil => intro m hm; simp at hm
  | cons e rest ih =>
    intro m hm hmin
    rw [List.pairwise_cons] at hp
    have hme : m = e := by
      rcases List.mem_cons.mp hm with h | h
      · exact h
      · exfalso
        have h1 : e.last_accessed < m.last_accessed := hp.1 m h
        have h2 : m.last_accessed ≤ e.last_accessed :=
          hmin e (List.mem_cons_self e rest)
        omega
    subst hme
    rw [minByLastAccessed]
    cases hr : minByLastAccessed rest with
    | none => rfl
    | some mr =>
      have hmr : mr ∈ rest := minByLastAccessed_mem rest mr hr
      have : m.last_accessed < mr.last_accessed := hp.1 mr hmr
      simp only []
      rw [if_neg (by omega)]

/-- C2: whenever the insertion of `add_to_memory` pushes the short-term
tier over its capacity, exactly one entry leaves the short-term tier
(its length returns to the pre-insertion count): the oldest entry with
`reliability_score > 0.8` — unique, since the tier is kept in strictly
increasing `last_accessed` order — moves to the long-term tier when one
exists (if the long-term tier is then over capacity its own oldest, i.e.
first, entry is dropped), and otherwise the oldest short-term entry is
dropped outright with the long-term tier untouched. -/
theorem addToMemory_eviction_policy (s : REPAIREditStream)
    (entry : MemoryEntry)
    (hov : (s.short_term_memory ++ [entry]).length > s.short_term_capacity)
    (hsorted : (s.short_term_memory ++ [entry]).Pairwise
      (fun a b => a.last_accessed < b.last_accessed))
    (hlsorted : s.long_term_memory.Pairwise
      (fun a b => a.last_accessed < b.last_accessed))
    (hL : 1 ≤ s.long_term_capacity)
    (hlcap : s.long_term_memory.length ≤ s.long_term_capacity) :
    (∀ m ∈ (s.short_term_memory ++ [entry]).filter isReliable,
      (∀ x ∈ (s.short_term_memory ++ [entry]).filter isReliable,
        m.last_accessed ≤ x.last_accessed) →
      (addToMemory s entry).short_term_memory =
        (s.short_term_memory ++ [entry]).erase m ∧
      (addToMemory s entry).short_term_memory.length =
        s.short_term_memory.length ∧
      ((s.long_term_memory ++
          [{ m with memory_type := "long_term" }]).length ≤
          s.long_term_capacity →
        (addToMemory s entry).long_term_memory =
          s.long_term_memory ++ [{ m with memory_type := "long_term" }]) ∧
      ((s.long_term_memory ++
          [{ m with memory_type := "long_term" }]).length >
          s.long_term_capacity →
        ∃ o rest, s.long_term_memory = o :: rest ∧
          (addToMemory s entry).long_term_memory =
            rest ++ [{ m with memory_type := "long_term" }] ∧
          ∀ x ∈ s.long_term_memory,
            o.last_accessed ≤ x.last_accessed)) ∧
    ((s.short_term_memory ++ [entry]).filter isReliable = [] →
      ∃ o rest, s.short_term_memory ++ [entry] = o :: rest ∧
        (addToMemory s entry).short_term_memory = rest ∧
        (addToMemory s entry).short_term_memory.length =
          s.short_term_memory.length ∧
        (∀ x ∈ s.short_term_memory ++ [entry],
          o.last_accessed ≤ x.last_accessed) ∧
        (addToMemory s entry).long_term_memory = s.long_term_memory) := by
  constructor
  · intro m hm hminimal
    have hmin : minByLastAccessed
        ((s.short_term_memory ++ [entry]).filter isReliable) = some m :=
      minByLastAccessed_of_sorted _ (List.Pairwise.filter _ hsorted) m hm
        hminimal
    rw [addToMemory_eq_promote s entry m hov hmin]
    have hmem : m ∈ s.short_term_memory ++ [entry] :=
      List.mem_of_mem_filter hm
    refine ⟨rfl, ?_, ?_, ?_⟩
    · show ((s.short_term_memory ++ [entry]).erase m).length = _
      rw [List.length_erase_of_mem hmem]
      simp
    · intro hle
      show (if _ > _ then _ else _) = _
      rw [if_neg (by omega)]
    · intro hgt
      have hlne : s.long_term_memory ≠ [] := by
        intro h
        rw [h] at hgt
        simp at hgt
        omega
      cases hl : s.long_term_memory with
      | nil => exact absurd hl hlne
      | cons o rest =>
        refine ⟨o, rest, rfl, ?_, ?_⟩
        · show (if _ > _ then _ else _) = _
          rw [if_pos (by rw [← hl]; omega)]
          rw [← hl, drop_one_append_singleton _ _ hlne, hl]
          simp
        · rw [← hl]
          rw [hl] at hlsorted
          rw [List.pairwise_cons] at hlsorted
          intro x hx
          rw [hl, List.mem_cons] at hx
          rcases hx with hx | hx
          · rw [hx]
          · exact Nat.le_of_lt (hlsorted.1 x hx)
  · intro hrel
    have hmin : minByLastAccessed
        ((s.short_term_memory ++ [entry]).filter isReliable) = none := by
      rw [hrel]
      rfl
    rw [addToMemory_eq_drop_oldest s entry hov hmin]
    obtain ⟨o, rest, hsh⟩ : ∃ o rest,
        s.short_term_memory ++ [entry] = o :: rest := by
      cases h : s.short_term_memory ++ [entry] with
      | nil => simp at h
      | cons a t => exact ⟨a, t, rfl⟩
    refine ⟨o, rest, hsh, ?_, ?_, ?_, ?_⟩
    · show (s.short_term_memory ++ [entry]).drop 1 = rest
      rw [hsh]
      rfl
    · show ((s.short_term_memory ++ [entry]).drop 1).length = _
      rw [List.length_drop]
      simp
    · have hp := hsorted
      rw [hsh, List.pairwise_cons] at hp
      intro x hx
      rw [hsh, List.mem_cons] at hx
      rcases hx with hx | hx
      · rw [hx]
      · exact Nat.le_of_lt (hp.1 x hx)
    · show (if _ > _ then _ else _) = _
      rw [if_neg (by omega)]

/-- C2 witness: a capacity-1 stream holding one fully reliable entry;
inserting a second reliable entry promotes the older one to the long-term
tier. -/
theorem addToMemory_eviction_policy_witness :
    (addToMemory fixtureStream fixtureEntry1).short_term_memory =
      (fixtureStream.short_term_memory ++ [fixtureEntry1]).erase
        fixtureEntry0 ∧
    (addToMemory fixtureStream fixtureEntry1).short_term_memory.length =
      fixtureStream.short_term_memory.length ∧
    (addToMemory fixtureStream fixtureEntry1).long_term_memory =
      fixtureStream.long_term_memory ++
        [{ fixtureEntry0 with memory_type := "long_term" }] := by
  have h := (addToMemory_eviction_policy fixtureStream fixtureEntry1
    (by decide) (by decide) (by decide) (by decide) (by decide)).1
    fixtureEntry0
    (by
      rw [List.mem_filter]
      refine ⟨by decide, ?_⟩
      simp [isReliable, fixtureEntry0]
      norm_num)
    (by
      intro x hx
      exact Nat.zero_le _)
  exact ⟨h.1, h.2.1, h.2.2.1 (by decide)⟩

theorem routeLayer_filterMap_eq {E : Type} (sim : E → E → ℚ) (qe : E)
    (ql : String) (qd : Option String) (th : ℚ) (layer : ContextLayer) :
    ∀ l : List (ContextEntry E),
      (l.filterMap (fun entry =>
        if layer = ContextLayer.LANGUAGE ∧ entry.language ≠ ql then none
        else if layer = ContextLayer.DOMAIN ∧ qd.isSome ∧
            entry.domain ≠ qd then none
        else
          let s := sim qe entry.embedding
          if th ≤ s then some (entry, s) else none)) =
      ((l.filter (specLayerPass layer ql qd)).map
          (fun e => (e, sim qe e.embedding))).filter
        (fun p => decide (th ≤ p.2)) := by
  intro l
  induction l with
  | nil => rfl
  | cons e t ih =>
    rw [List.filterMap_cons, List.filter_cons]
    by_cases h1 : layer = ContextLayer.LANGUAGE ∧ e.language ≠ ql
    · have hpass : specLayerPass layer ql qd e = false := by
        simp [specLayerPass, h1]
      rw [if_pos h1, hpass, ih]
      simp
    · by_cases h2 : layer = ContextLayer.DOMAIN ∧ qd.isSome ∧ e.domain ≠ qd
      · have hpass : specLayerPass layer ql qd e = false := by
          simp [specLayerPass, h2]
        rw [if_neg h1, if_pos h2, hpass, ih]
        simp
      · have hpass : specLayerPass layer ql qd e = true := by
          simp [specLayerPass, h1, h2]
        rw [if_neg h1, if_neg h2, hpass, ih]
        simp only [if_true, List.map_cons, List.filter_cons]
        by_cases h3 : th ≤ sim qe e.embedding
        · rw [if_pos h3]
          simp [h3]
        · rw [if_neg h3]
          simp [h3]

theorem routeDescTrans {E : Type} :
    ∀ a b c : ContextEntry E × ℚ,
      decide (b.2 ≤ a.2) = true → decide (c.2 ≤ b.2) = true →
      decide (c.2 ≤ a.2) = true := by
  intro a b c hab hbc
  rw [decide_eq_true_eq] at hab hbc ⊢
  exact le_trans hbc hab

theorem routeDescTotal {E : Type} :
    ∀ a b : ContextEntry E × ℚ,
      (decide (b.2 ≤ a.2) || decide (a.2 ≤ b.2)) = true := by
  intro a b
  rcases le_total b.2 a.2 with h | h <;> simp [h]

theorem routeLayer_eq_spec {E : Type} (sim : E → E → ℚ)
    (r : ACEContextRouter E) (qe : E) (ql : String) (qd : Option String)
    (qc : ℚ) (k : ℕ) (layer : ContextLayer) :
    routeLayer sim r qe ql qd qc k layer =
      specRouted sim r qe ql qd qc k layer := by
  rw [routeLayer, specRouted, specFiltered]
  rw [routeLayer_filterMap_eq]

/-- C5: `route_context` returns, per layer, exactly the layer's entries
that pass that layer's filters (LANGUAGE keeps only the query's language;
DOMAIN, when a domain is supplied, keeps only that domain) with similarity
at or above the layer's adjusted threshold, stable-sorted descending by
similarity (ties keep the store's insertion order, by stability of the
sort over the filtered sequence) and truncated to `top_k`; in particular a
LANGUAGE store holding no entry of the query's language yields an empty
LANGUAGE result regardless of similarity scores. -/
theorem routeContext_spec {E : Type} (sim : E → E → ℚ)
    (r : ACEContextRouter E) (qe : E) (ql : String) (qd : Option String)
    (qc : ℚ) (k : ℕ) :
    (∀ layer, routeContext sim r qe ql qd qc k layer =
      specRouted sim r qe ql qd qc k layer) ∧
    (∀ layer, (routeContext sim r qe ql qd qc k layer).Pairwise
      (fun a b => b.2 ≤ a.2)) ∧
    (∀ layer, ∀ x y : ContextEntry E × ℚ, x.2 = y.2 →
      [x, y].Sublist (specFiltered sim r qe ql qd qc layer) →
      [x, y].Sublist ((specFiltered sim r qe ql qd qc layer).mergeSort
        (fun a b => decide (b.2 ≤ a.2)))) ∧
    ((∀ e ∈ r.context_store ContextLayer.LANGUAGE, e.language ≠ ql) →
      routeContext sim r qe ql qd qc k ContextLayer.LANGUAGE = []) := by
  refine ⟨?_, ?_, ?_, ?_⟩
  · intro layer
    exact routeLayer_eq_spec sim r qe ql qd qc k layer
  · intro layer
    rw [show routeContext sim r qe ql qd qc k layer =
      routeLayer sim r qe ql qd qc k layer from rfl]
    rw [routeLayer_eq_spec sim r qe ql qd qc k layer, specRouted]
    have hs := @List.sorted_mergeSort (ContextEntry E × ℚ)
      (fun a b => decide (b.2 ≤ a.2)) routeDescTrans routeDescTotal
      (specFiltered sim r qe ql qd qc layer)
    have := List.Pairwise.sublist (List.take_sublist k _) hs
    exact this.imp (fun h => decide_eq_true_eq.mp h)
  · intro layer x y hxy hsub
    exact List.sublist_mergeSort routeDescTrans routeDescTotal
      (by
        rw [List.pairwise_cons]
        refine ⟨?_, by simp⟩
        intro b hb
        rw [List.mem_singleton] at hb
        rw [hb, decide_eq_true_eq, hxy])
      hsub
  · intro hlang
    rw [show routeContext sim r qe ql qd qc k ContextLayer.LANGUAGE =
      routeLayer sim r qe ql qd qc k ContextLayer.LANGUAGE from rfl]
    rw [routeLayer_eq_spec, specRouted, specFiltered]
    have hfil : (r.context_store ContextLayer.LANGUAGE).filter
        (specLayerPass ContextLayer.LANGUAGE ql qd) = [] := by
      rw [List.filter_eq_nil_iff]
      intro e he
      simp [specLayerPass, hlang e he]
    rw [hfil]
    simp

/-- C5 witness: routing an "en" query against a LANGUAGE store holding
only a Spanish entry gives the empty LANGUAGE result. -/
theorem routeContext_spec_witness :
    routeContext (fun _ _ => (1 : ℚ)) fixtureRouter () "en" none 0.5 5
      ContextLayer.LANGUAGE = [] :=
  (routeContext_spec (fun _ _ => (1 : ℚ)) fixtureRouter () "en" none 0.5
    5).2.2.2 (by
      intro e he
      simp [fixtureRouter] at he
      rw [he, fixtureEsEntry]
      decide)

/-- C7 witness: the one-node graph at its sole node. -/
theorem traversal_self_loop_witness :
    classicalTraversal ⟨["A"], []⟩ "A" "A" = Except.ok (["A"], 0) ∧
    (∀ solver, qaoaTraversal solver ⟨["A"], []⟩ "A" "A" =
      Except.ok (["A"], 0)) ∧
    computeSemanticCoherence ⟨["A"], []⟩ ["A"] = 1 :=
  traversal_self_loop ⟨["A"], []⟩ "A" (by decide)

end QuantumLimitGraph
